import Mathlib

/-!
Shallow embedding of the ooda_lib capture→segment→queue→upload pipeline.

Sources embedded here:
- `src/ooda/ingest/upload.py` (`upload_to_s3`),
- `src/ooda/ingest/stream.py` (`save`),
- `src/ooda/cameras/pi_zero_w/pi_camera.py`
  (`VideoCapture._capture_video_loop`, `VideoCapture._s3_upload_loop`).

Machine conventions: wall-clock times are natural numbers of seconds; chunk
descriptors are natural numbers assigned in production order (one id per
iteration of the producing loop, mirroring the per-session monotone sequence
of produced chunk files); the local filesystem is the list of chunk ids whose
files currently exist; the S3 client is an oracle `ok : Nat → Bool` giving the
outcome of the (external) upload call for each chunk.
-/

namespace Ooda

/-! ### Constants, from `pi_camera.py` and `stream.py` -/

/-- Constant `VIDEO_CHUNK_DURATION = 60` from `pi_camera.py`. -/
def VIDEO_CHUNK_DURATION : Nat := 60

/-- Constant `VIDEO_FORMAT = 'h264'` from `pi_camera.py`. -/
def VIDEO_FORMAT : String := "h264"

/-- Constant `S3_UPLOAD_INTERVAL = 300` from `pi_camera.py`. -/
def S3_UPLOAD_INTERVAL : Nat := 300

/-- Local variable `chunk_duration = 60` from `stream.py`. -/
def streamChunkDuration : Nat := 60

/-! ### `upload.py`: `upload_to_s3` -/

/-- Characters of `os.path.basename`: the suffix after the last slash. -/
def basenameChars (l : List Char) : List Char :=
  (l.reverse.takeWhile (fun c => c != '/')).reverse

/-- Model of `os.path.basename` for slash-separated paths without a trailing
slash, as used by `upload_to_s3`. -/
def pyBasename (s : String) : String := String.mk (basenameChars s.data)

/-- The remote key computed in `upload_to_s3`:
`s3_key = f"video_chunks/{filename}"` with `filename = os.path.basename(local_file)`. -/
def uploadS3Key (localFile : String) : String := "video_chunks/" ++ pyBasename localFile

/-- Model of `upload_to_s3(local_file, s3_client, bucket_name)`.
The whole body is a `try` block whose `except Exception` clause prints and
falls through, so a storage-client error (`clientResult = .error e`) is caught
and the function still returns normally. The Lean value `.ok ((), msgs)`
means: the Python function returned `None` normally, having printed `msgs`;
`.error e` would mean an exception escaped to the caller. -/
def upload_to_s3 (localFile bucket : String) (clientResult : Except String Unit) :
    Except String (Unit × List String) :=
  let filename := pyBasename localFile
  let s3Key := "video_chunks/" ++ filename
  match clientResult with
  | Except.ok _ =>
      Except.ok ((), ["Uploaded " ++ filename ++ " to s3://" ++ bucket ++ "/" ++ s3Key])
  | Except.error e =>
      Except.ok ((), ["Failed to upload " ++ filename ++ ": " ++ e])

/-! ### `pi_camera.py`: `_capture_video_loop`

One iteration of the `while self.running` loop either completes a chunk
(encoder started, recording wait, encoder stopped, file enqueued) or hits an
exception. The `except` clause logs, sleeps 1 second, and tries to restart
the camera; it never deletes the partially written file and never enqueues it.
An iteration's chunk id is the running iteration count. An error can strike
before the encoder has created the output file (`errBeforeCreate`, e.g.
`create_encoder` fails) or after (`errAfterCreate`, e.g. `encoder.stop()` or
the device fails mid-recording). -/

/-- Outcome of one iteration of `_capture_video_loop`. -/
inductive CapOutcome
  | ok
  | errAfterCreate
  | errBeforeCreate
deriving DecidableEq

/-- Observable events of `_capture_video_loop`, in program order. -/
inductive CapEvent
  | encStart (c : Nat)
  | encStop (c : Nat)
  | enqueue (c : Nat)
  | errLogged (c : Nat)
  | camRestart (c : Nat)
deriving DecidableEq

/-- State of the capture loop: next chunk id, files on disk, the
pending-upload queue contents in enqueue order, and the event trace. -/
structure CapState where
  seq : Nat
  disk : List Nat
  queue : List Nat
  trace : List CapEvent
deriving DecidableEq

/-- Initial capture-loop state. -/
def initCap : CapState := ⟨0, [], [], []⟩

/-- One iteration of the `while self.running` body of `_capture_video_loop`.
On `ok`: `encoder.start()` creates the file, recording runs, `encoder.stop()`
closes it, and only then `self.video_queue.put(filepath)` enqueues it.
On an error after the file was created: the `except` clause logs the error and
restarts the camera; the file stays on disk and is not enqueued.
On an error before the file was created: log and restart only. -/
def capIter (o : CapOutcome) (s : CapState) : CapState :=
  let c := s.seq
  match o with
  | CapOutcome.ok =>
      { seq := c + 1, disk := s.disk ++ [c], queue := s.queue ++ [c],
        trace := s.trace ++ [CapEvent.encStart c, CapEvent.encStop c, CapEvent.enqueue c] }
  | CapOutcome.errAfterCreate =>
      { seq := c + 1, disk := s.disk ++ [c], queue := s.queue,
        trace := s.trace ++ [CapEvent.encStart c, CapEvent.errLogged c, CapEvent.camRestart c] }
  | CapOutcome.errBeforeCreate =>
      { seq := c + 1, disk := s.disk, queue := s.queue,
        trace := s.trace ++ [CapEvent.errLogged c, CapEvent.camRestart c] }

/-- Run the capture loop from a given state over a schedule of iteration
outcomes; the schedule ends when `self.running` is observed false at the top
of the loop (cooperative shutdown: the iteration in progress completes). -/
def capRunFrom : List CapOutcome → CapState → CapState
  | [], s => s
  | o :: rest, s => capRunFrom rest (capIter o s)

/-- Run the capture loop from the initial state. -/
def capRun (sched : List CapOutcome) : CapState := capRunFrom sched initCap

/-- Ids enqueued by a capture schedule starting at a given id. -/
def capQueueOf (seq : Nat) : List CapOutcome → List Nat
  | [] => []
  | o :: rest =>
      (if o = CapOutcome.ok then [seq] else []) ++ capQueueOf (seq + 1) rest

/-- Ids whose files a capture schedule creates on disk, starting at an id. -/
def capDiskOf (seq : Nat) : List CapOutcome → List Nat
  | [] => []
  | o :: rest =>
      (if o = CapOutcome.errBeforeCreate then [] else [seq]) ++ capDiskOf (seq + 1) rest

/-- Event trace emitted by a capture schedule starting at a given id. -/
def capTraceOf (seq : Nat) : List CapOutcome → List CapEvent
  | [] => []
  | CapOutcome.ok :: rest =>
      [CapEvent.encStart seq, CapEvent.encStop seq, CapEvent.enqueue seq]
        ++ capTraceOf (seq + 1) rest
  | CapOutcome.errAfterCreate :: rest =>
      [CapEvent.encStart seq, CapEvent.errLogged seq, CapEvent.camRestart seq]
        ++ capTraceOf (seq + 1) rest
  | CapOutcome.errBeforeCreate :: rest =>
      [CapEvent.errLogged seq, CapEvent.camRestart seq] ++ capTraceOf (seq + 1) rest

/-- Checker state step for write-then-enqueue ordering: scanning the capture
trace, an `enqueue c` is legal only if `encStop c` was seen before it. -/
def wbeCapStep : Bool × List Nat → CapEvent → Bool × List Nat
  | (b, stopped), CapEvent.encStop c => (b, stopped ++ [c])
  | (b, stopped), CapEvent.enqueue c => (b && stopped.contains c, stopped)
  | p, _ => p

/-- Decides whether every `enqueue` in a capture trace is preceded by the
matching `encStop`. -/
def wbeCapOk (tr : List CapEvent) : Bool := (tr.foldl wbeCapStep (true, [])).1

/-! ### `pi_camera.py`: `_s3_upload_loop`

One iteration of the `while self.running` loop: drain `video_queue` into
`files_to_upload`, then
`if current_time - last_upload_time >= S3_UPLOAD_INTERVAL or len(files_to_upload) >= 10:`
and, inside it, `if files_to_upload:` process the batch in order, then clear
the batch and set `last_upload_time = current_time`; finally sleep 5 seconds.
Per chunk: skip with a warning if the file no longer exists; otherwise upload,
and on success delete the file, on failure log the error. -/

/-- Environment of one poll iteration of `_s3_upload_loop`: the wall-clock
value of `current_time = time.time()`, the chunk files the capture thread
wrote since the previous poll, and the chunk ids it enqueued since then
(drained at the top of the iteration). -/
structure UpStep where
  now : Nat
  created : List Nat
  arrivals : List Nat
deriving DecidableEq

/-- State of the upload worker: `last_upload_time`, the in-memory batch
`files_to_upload`, the local filesystem, and histories of upload attempts,
successes (file deleted), failures (error logged), skips (missing-file
warning), and started cycles (each logged batch size). -/
structure UpState where
  lastUploadTime : Nat
  batch : List Nat
  disk : List Nat
  attempts : List Nat
  uploaded : List Nat
  failed : List Nat
  skipped : List Nat
  cycles : List Nat
deriving DecidableEq

/-- Upload worker state at the top of `_s3_upload_loop`:
`last_upload_time = time.time()` and an empty batch. -/
def initUp (t0 : Nat) : UpState :=
  { lastUploadTime := t0, batch := [], disk := [], attempts := [], uploaded := [],
    failed := [], skipped := [], cycles := [] }

/-- The `for filepath in files_to_upload` body of `_s3_upload_loop`:
if the file is gone, warn and continue; else attempt the upload
(`s3_client.upload_file`), and on success `os.remove` the file, on failure
log the error. The batch list itself is not modified here. -/
def processBatch (ok : Nat → Bool) : UpState → List Nat → UpState
  | s, [] => s
  | s, c :: rest =>
    if c ∈ s.disk then
      let s1 : UpState := { s with attempts := s.attempts ++ [c] }
      let s2 : UpState :=
        if ok c then
          { s1 with disk := s1.disk.erase c, uploaded := s1.uploaded ++ [c] }
        else
          { s1 with failed := s1.failed ++ [c] }
      processBatch ok s2 rest
    else
      processBatch ok { s with skipped := s.skipped ++ [c] } rest

/-- One iteration of the `while self.running` body of `_s3_upload_loop`:
record newly created files, drain the queue into the batch, then fire an
upload cycle exactly when the code's nested conditions hold. -/
def uploadIter (ok : Nat → Bool) (st : UpStep) (s : UpState) : UpState :=
  let s1 : UpState := { s with disk := s.disk ++ st.created, batch := s.batch ++ st.arrivals }
  if S3_UPLOAD_INTERVAL ≤ st.now - s1.lastUploadTime ∨ 10 ≤ s1.batch.length then
    if s1.batch.isEmpty then s1
    else
      let s2 := processBatch ok { s1 with cycles := s1.cycles ++ [s1.batch.length] } s1.batch
      { s2 with batch := [], lastUploadTime := st.now }
  else s1

/-- Run the upload worker from a given state over a list of poll iterations;
the list ends when `self.running` is observed false at the top of the loop,
after which the code only logs "Upload loop ended". -/
def uploadRunFrom (ok : Nat → Bool) : List UpStep → UpState → UpState
  | [], s => s
  | st :: rest, s => uploadRunFrom ok rest (uploadIter ok st s)

/-- Run the upload worker from its initial state (`last_upload_time = t0`). -/
def uploadRun (ok : Nat → Bool) (steps : List UpStep) (t0 : Nat) : UpState :=
  uploadRunFrom ok steps (initUp t0)

/-- Delivery discipline of the capture thread toward the upload worker:
every enqueued chunk's file was created in the same poll window, and chunk
ids arrive in strictly increasing production order, each exactly once. -/
def StepsWF (steps : List UpStep) : Prop :=
  List.Pairwise (· < ·) (steps.map UpStep.arrivals).flatten ∧
    ∀ st ∈ steps, st.created = st.arrivals

/-! ### `stream.py`: `save`

The `while True` loop reads frames; every `frames_per_chunk`-th frame it
rotates: release the current writer, `upload_to_s3` the finished chunk,
`os.remove` it, then open a new writer (which creates the next file).
`upload_to_s3` swallows client errors (see above), so `save`'s control flow
does not depend on the upload outcome; the outcome oracle is recorded in
`uploadFails` (mirroring the "Failed to upload" print). On stream end or
interrupt, the `finally` block releases the current writer and, if its file
exists, uploads and removes it. -/

/-- Observable events of `save`, in program order. -/
inductive SaveEvent
  | openWriter (c : Nat)
  | writeFrame (c : Nat)
  | release (c : Nat)
  | uploadCall (c : Nat)
  | removeFile (c : Nat)
deriving DecidableEq

/-- State of `save`: `chunk_counter`, `frame_counter`, the chunk owned by
`current_writer` (with `current_filename`), the files on disk, histories of
`upload_to_s3` calls, failed uploads, removed files, and the event trace. -/
structure SaveState where
  chunkCounter : Nat
  frameCounter : Nat
  current : Option Nat
  disk : List Nat
  uploads : List Nat
  uploadFails : List Nat
  removed : List Nat
  trace : List SaveEvent
deriving DecidableEq

/-- Initial `save` state: counters zero, no writer open. -/
def initSave : SaveState := ⟨0, 0, none, [], [], [], [], []⟩

/-- The rotation block of `save` (`if frame_counter % frames_per_chunk == 0`):
if a writer is open, release it, call `upload_to_s3` on its chunk and
`os.remove` the file (unconditionally — `upload_to_s3` cannot raise); then
open the next writer, which creates the next chunk file. -/
def saveRotate (ok : Nat → Bool) (s : SaveState) : SaveState :=
  let s1 : SaveState :=
    match s.current with
    | none => s
    | some c =>
        { s with disk := s.disk.erase c,
                 uploads := s.uploads ++ [c],
                 uploadFails := if ok c then s.uploadFails else s.uploadFails ++ [c],
                 removed := s.removed ++ [c],
                 trace := s.trace ++
                   [SaveEvent.release c, SaveEvent.uploadCall c, SaveEvent.removeFile c] }
  let c2 := s1.chunkCounter
  { s1 with current := some c2, disk := s1.disk ++ [c2], chunkCounter := c2 + 1,
            trace := s1.trace ++ [SaveEvent.openWriter c2] }

/-- The tail of the loop body: `current_writer.write(frame)` and
`frame_counter += 1`. -/
def saveWrite (s : SaveState) : SaveState :=
  match s.current with
  | some c => { s with trace := s.trace ++ [SaveEvent.writeFrame c],
                       frameCounter := s.frameCounter + 1 }
  | none => { s with frameCounter := s.frameCounter + 1 }

/-- One successful `cap.read()` iteration of the `while True` loop of `save`. -/
def saveStep (ok : Nat → Bool) (fpc : Nat) (s : SaveState) : SaveState :=
  saveWrite (if s.frameCounter % fpc = 0 then saveRotate ok s else s)

/-- Process `n` successfully read frames. -/
def saveSteps (ok : Nat → Bool) (fpc : Nat) : Nat → SaveState → SaveState
  | 0, s => s
  | n + 1, s => saveSteps ok fpc n (saveStep ok fpc s)

/-- The `finally` block of `save`: if a writer is open, release it and, if its
file still exists, upload and remove it. -/
def saveFinal (ok : Nat → Bool) (s : SaveState) : SaveState :=
  match s.current with
  | none => s
  | some c =>
      let s1 : SaveState := { s with trace := s.trace ++ [SaveEvent.release c] }
      if c ∈ s1.disk then
        { s1 with disk := s1.disk.erase c,
                  uploads := s1.uploads ++ [c],
                  uploadFails := if ok c then s1.uploadFails else s1.uploadFails ++ [c],
                  removed := s1.removed ++ [c],
                  trace := s1.trace ++ [SaveEvent.uploadCall c, SaveEvent.removeFile c] }
      else s1

/-- `frames_per_chunk = fps * chunk_duration` with
`fps = int(cap.get(cv2.CAP_PROP_FPS)) or 30`. -/
def fpcOf (fps : Nat) : Nat := (if fps = 0 then 30 else fps) * streamChunkDuration

/-- Run `save` over `n` successfully read frames followed by a failed read
(stream end) or interrupt, executing the `finally` block. -/
def saveRun (ok : Nat → Bool) (fps : Nat) (n : Nat) : SaveState :=
  saveFinal ok (saveSteps ok (fpcOf fps) n initSave)

/-- Checker state step for release-before-upload ordering in a `save` trace:
an `uploadCall c` is legal only if `release c` was seen before it. -/
def wbeSaveStep : Bool × List Nat → SaveEvent → Bool × List Nat
  | (b, rel), SaveEvent.release c => (b, rel ++ [c])
  | (b, rel), SaveEvent.uploadCall c => (b && rel.contains c, rel)
  | p, _ => p

/-- Decides whether every `uploadCall` in a `save` trace is preceded by the
matching `release`. -/
def wbeSaveOk (tr : List SaveEvent) : Bool := (tr.foldl wbeSaveStep (true, [])).1

/-! ### Filenames and remote keys -/

/-- Decimal digit character. -/
def digitChar (n : Nat) : Char :=
  if n = 0 then '0' else if n = 1 then '1' else if n = 2 then '2'
  else if n = 3 then '3' else if n = 4 then '4' else if n = 5 then '5'
  else if n = 6 then '6' else if n = 7 then '7' else if n = 8 then '8'
  else if n = 9 then '9' else '0'

/-- Decimal rendering of a natural number, with explicit fuel. -/
def natCharsAux : Nat → Nat → List Char
  | 0, _ => []
  | fuel + 1, n =>
      if n < 10 then [digitChar n]
      else natCharsAux fuel (n / 10) ++ [digitChar (n % 10)]

/-- Decimal rendering of a natural number (model of Python `str(n)`). -/
def natChars (n : Nat) : List Char := natCharsAux (n + 1) n

/-- Model of Python `f"{n:04d}"`: zero-pad the decimal rendering to width 4. -/
def pyPad4 (n : Nat) : String :=
  String.mk (List.replicate (4 - (natChars n).length) '0' ++ natChars n)

/-- Local chunk filename built in `save`:
`f"chunk_{timestamp}_{chunk_counter:04d}.mp4"`. -/
def streamChunkName (ts : String) (seq : Nat) : String :=
  "chunk_" ++ ts ++ "_" ++ pyPad4 seq ++ ".mp4"

/-- The fixed directory `temp_dir = Path("/tmp/video_chunks")` of `save`. -/
def streamChunkDir : String := "/tmp/video_chunks"

/-- Full local path of a `save` chunk file (`temp_dir / name`). -/
def streamChunkPath (ts : String) (seq : Nat) : String :=
  streamChunkDir ++ "/" ++ streamChunkName ts seq

/-- Local chunk filename built in `_capture_video_loop`:
`f"video_{timestamp}.{VIDEO_FORMAT}"`. -/
def piChunkFilename (ts : String) : String := "video_" ++ ts ++ "." ++ VIDEO_FORMAT

/-- Remote key built in `_s3_upload_loop`: `f"{self.s3_prefix}{filepath.name}"`. -/
def piS3Key (pfx fileName : String) : String := pfx ++ fileName

/-- Modelled from the spec: recognizer for the timestamp shape
`YYYYMMDD_HHMMSS` (15 characters: 8 digits, an underscore, 6 digits), the
output shape of `strftime("%Y%m%d_%H%M%S")`, which itself is external. -/
def spec_tsOk (l : List Char) : Bool :=
  decide (l.length = 15) && (l.take 8).all Char.isDigit &&
    decide ((l.drop 8).take 1 = ['_']) && (l.drop 9).all Char.isDigit

/-- Modelled from the spec: recognizer for the file-layout sentence
"local chunk files named `chunk_<YYYYMMDD_HHMMSS>_<seq>.<ext>`": the literal
stem `chunk_`, a timestamp, an underscore, a nonempty decimal sequence
number, a dot and a nonempty extension. -/
def spec_chunkNameOk (s : String) : Bool :=
  let l := s.data
  decide (l.take 6 = "chunk_".data) &&
    spec_tsOk ((l.drop 6).take 15) &&
    decide ((l.drop 21).take 1 = ['_']) &&
    (let se := l.drop 22
     decide (0 < (se.takeWhile Char.isDigit).length) &&
       (match se.dropWhile Char.isDigit with
        | '.' :: ext1 => decide (ext1 ≠ [])
        | _ => false))

/-! ## Helper lemmas: generic lists -/

/-- `takeWhile` runs through a satisfying block and stops at the first
failing element. -/
theorem takeWhile_append_all {α : Type} (p : α → Bool) :
    ∀ (l : List α) (c : α) (r : List α), l.all p = true → p c = false →
      (l ++ c :: r).takeWhile p = l := by
  intro l c r hall hc
  induction l with
  | nil => simp [List.takeWhile, hc]
  | cons a l ih =>
      simp only [List.all_cons, Bool.and_eq_true] at hall
      simp [List.takeWhile, hall.1, ih hall.2]

/-- `dropWhile` drops a satisfying block and stops at the first failing
element. -/
theorem dropWhile_append_all {α : Type} (p : α → Bool) :
    ∀ (l : List α) (c : α) (r : List α), l.all p = true → p c = false →
      (l ++ c :: r).dropWhile p = c :: r := by
  intro l c r hall hc
  induction l with
  | nil => simp [List.dropWhile, hc]
  | cons a l ih =>
      simp only [List.all_cons, Bool.and_eq_true] at hall
      simp [List.dropWhile, hall.1, ih hall.2]

/-! ## Helper lemmas: capture loop -/

/-- The capture loop advances the chunk id once per iteration, regardless of
errors. -/
theorem capRunFrom_seq (sched : List CapOutcome) :
    ∀ s : CapState, (capRunFrom sched s).seq = s.seq + sched.length := by
  induction sched with
  | nil => intro s; simp [capRunFrom]
  | cons o rest ih =>
      intro s
      have h := ih (capIter o s)
      cases o <;> simp [capRunFrom, capIter] at h ⊢ <;> omega

/-- The queue contents after a capture run. -/
theorem capRunFrom_queue (sched : List CapOutcome) :
    ∀ s : CapState, (capRunFrom sched s).queue = s.queue ++ capQueueOf s.seq sched := by
  induction sched with
  | nil => intro s; simp [capRunFrom, capQueueOf]
  | cons o rest ih =>
      intro s
      have h := ih (capIter o s)
      cases o <;> simp [capRunFrom, capIter, capQueueOf] at h ⊢ <;> simp [h]

/-- The files on disk after a capture run. -/
theorem capRunFrom_disk (sched : List CapOutcome) :
    ∀ s : CapState, (capRunFrom sched s).disk = s.disk ++ capDiskOf s.seq sched := by
  induction sched with
  | nil => intro s; simp [capRunFrom, capDiskOf]
  | cons o rest ih =>
      intro s
      have h := ih (capIter o s)
      cases o <;> simp [capRunFrom, capIter, capDiskOf] at h ⊢ <;> simp [h]

/-- The event trace after a capture run. -/
theorem capRunFrom_trace (sched : List CapOutcome) :
    ∀ s : CapState, (capRunFrom sched s).trace = s.trace ++ capTraceOf s.seq sched := by
  induction sched with
  | nil => intro s; simp [capRunFrom, capTraceOf]
  | cons o rest ih =>
      intro s
      have h := ih (capIter o s)
      cases o <;> simp [capRunFrom, capIter, capTraceOf] at h ⊢ <;> simp [h]

/-- Membership in the enqueued ids of a schedule: exactly the ids of
`ok` iterations. -/
theorem mem_capQueueOf (sched : List CapOutcome) :
    ∀ (seq c : Nat), c ∈ capQueueOf seq sched ↔
      ∃ j, sched[j]? = some CapOutcome.ok ∧ c = seq + j := by
  induction sched with
  | nil => intro seq c; simp [capQueueOf]
  | cons o rest ih =>
      intro seq c
      constructor
      · intro hmem
        rcases List.mem_append.1 hmem with h | h
        · refine ⟨0, ?_, ?_⟩
          · rcases o <;> simp_all
          · rcases o <;> simp_all
        · obtain ⟨j, hj, hc⟩ := (ih (seq + 1) c).1 h
          exact ⟨j + 1, by simpa using hj, by omega⟩
      · rintro ⟨j, hj, hc⟩
        cases j with
        | zero =>
            simp only [List.getElem?_cons_zero, Option.some.injEq] at hj
            subst hj
            simp [capQueueOf, hc]
        | succ j =>
            simp only [List.getElem?_cons_succ] at hj
            refine List.mem_append.2 (Or.inr ?_)
            exact (ih (seq + 1) c).2 ⟨j, hj, by omega⟩

/-- Membership in the on-disk ids of a schedule: exactly the ids of
iterations whose encoder created the output file. -/
theorem mem_capDiskOf (sched : List CapOutcome) :
    ∀ (seq c : Nat), c ∈ capDiskOf seq sched ↔
      ∃ j o, sched[j]? = some o ∧ o ≠ CapOutcome.errBeforeCreate ∧ c = seq + j := by
  induction sched with
  | nil => intro seq c; simp [capDiskOf]
  | cons o rest ih =>
      intro seq c
      constructor
      · intro hmem
        rcases List.mem_append.1 hmem with h | h
        · refine ⟨0, o, by simp, ?_, ?_⟩
          · rcases o <;> simp_all
          · rcases o <;> simp_all
        · obtain ⟨j, o2, hj, ho2, hc⟩ := (ih (seq + 1) c).1 h
          exact ⟨j + 1, o2, by simpa using hj, ho2, by omega⟩
      · rintro ⟨j, o2, hj, ho2, hc⟩
        cases j with
        | zero =>
            simp only [List.getElem?_cons_zero, Option.some.injEq] at hj
            rcases o <;> rcases o2 <;> simp_all [capDiskOf]
        | succ j =>
            simp only [List.getElem?_cons_succ] at hj
            refine List.mem_append.2 (Or.inr ?_)
            exact (ih (seq + 1) c).2 ⟨j, o2, hj, ho2, by omega⟩

/-- An `enqueue c` event appears in a capture trace exactly when iteration
`c - seq` is an `ok` iteration. -/
theorem enqueue_mem_capTraceOf (sched : List CapOutcome) :
    ∀ (seq c : Nat), CapEvent.enqueue c ∈ capTraceOf seq sched ↔
      ∃ j, sched[j]? = some CapOutcome.ok ∧ c = seq + j := by
  induction sched with
  | nil => intro seq c; simp [capTraceOf]
  | cons o rest ih =>
      intro seq c
      constructor
      · intro hmem
        rcases o <;> simp only [capTraceOf, List.cons_append, List.nil_append,
          List.mem_cons, List.mem_append] at hmem
        · rcases hmem with h | h | h | h
          · exact absurd h (by simp)
          · exact absurd h (by simp)
          · exact ⟨0, by simp, by simpa [CapEvent.enqueue.injEq] using h⟩
          · obtain ⟨j, hj, hc⟩ := (ih (seq + 1) c).1 h
            exact ⟨j + 1, by simpa using hj, by omega⟩
        · rcases hmem with h | h | h | h
          · exact absurd h (by simp)
          · exact absurd h (by simp)
          · exact absurd h (by simp)
          · obtain ⟨j, hj, hc⟩ := (ih (seq + 1) c).1 h
            exact ⟨j + 1, by simpa using hj, by omega⟩
        · rcases hmem with h | h | h
          · exact absurd h (by simp)
          · exact absurd h (by simp)
          · obtain ⟨j, hj, hc⟩ := (ih (seq + 1) c).1 h
            exact ⟨j + 1, by simpa using hj, by omega⟩
      · rintro ⟨j, hj, hc⟩
        cases j with
        | zero =>
            simp only [List.getElem?_cons_zero, Option.some.injEq] at hj
            subst hj
            simp [capTraceOf, hc]
        | succ j =>
            simp only [List.getElem?_cons_succ] at hj
            have hrec := (ih (seq + 1) c).2 ⟨j, hj, by omega⟩
            rcases o <;> simp [capTraceOf, hrec]

/-- An `errLogged c` event appears in a capture trace exactly when iteration
`c - seq` is an error iteration. -/
theorem errLogged_mem_capTraceOf (sched : List CapOutcome) :
    ∀ (seq c : Nat), CapEvent.errLogged c ∈ capTraceOf seq sched ↔
      ∃ j o, sched[j]? = some o ∧ o ≠ CapOutcome.ok ∧ c = seq + j := by
  induction sched with
  | nil => intro seq c; simp [capTraceOf]
  | cons o rest ih =>
      intro seq c
      constructor
      · intro hmem
        rcases o <;> simp only [capTraceOf, List.cons_append, List.nil_append,
          List.mem_cons, List.mem_append] at hmem
        · rcases hmem with h | h | h | h
          · exact absurd h (by simp)
          · exact absurd h (by simp)
          · exact absurd h (by simp)
          · obtain ⟨j, o2, hj, ho2, hc⟩ := (ih (seq + 1) c).1 h
            exact ⟨j + 1, o2, by simpa using hj, ho2, by omega⟩
        · rcases hmem with h | h | h | h
          · exact absurd h (by simp)
          · exact ⟨0, CapOutcome.errAfterCreate, by simp, by simp,
              by simpa [CapEvent.errLogged.injEq] using h⟩
          · exact absurd h (by simp)
          · obtain ⟨j, o2, hj, ho2, hc⟩ := (ih (seq + 1) c).1 h
            exact ⟨j + 1, o2, by simpa using hj, ho2, by omega⟩
        · rcases hmem with h | h | h
          · exact ⟨0, CapOutcome.errBeforeCreate, by simp, by simp,
              by simpa [CapEvent.errLogged.injEq] using h⟩
          · exact absurd h (by simp)
          · obtain ⟨j, o2, hj, ho2, hc⟩ := (ih (seq + 1) c).1 h
            exact ⟨j + 1, o2, by simpa using hj, ho2, by omega⟩
      · rintro ⟨j, o2, hj, ho2, hc⟩
        cases j with
        | zero =>
            simp only [List.getElem?_cons_zero, Option.some.injEq] at hj
            rcases o <;> rcases o2 <;> simp_all [capTraceOf]
        | succ j =>
            simp only [List.getElem?_cons_succ] at hj
            have hrec := (ih (seq + 1) c).2 ⟨j, o2, hj, ho2, by omega⟩
            rcases o <;> simp [capTraceOf, hrec]

/-- A `camRestart c` event appears in a capture trace exactly when iteration
`c - seq` is an error iteration. -/
theorem camRestart_mem_capTraceOf (sched : List CapOutcome) :
    ∀ (seq c : Nat), CapEvent.camRestart c ∈ capTraceOf seq sched ↔
      ∃ j o, sched[j]? = some o ∧ o ≠ CapOutcome.ok ∧ c = seq + j := by
  induction sched with
  | nil => intro seq c; simp [capTraceOf]
  | cons o rest ih =>
      intro seq c
      constructor
      · intro hmem
        rcases o <;> simp only [capTraceOf, List.cons_append, List.nil_append,
          List.mem_cons, List.mem_append] at hmem
        · rcases hmem with h | h | h | h
          · exact absurd h (by simp)
          · exact absurd h (by simp)
          · exact absurd h (by simp)
          · obtain ⟨j, o2, hj, ho2, hc⟩ := (ih (seq + 1) c).1 h
            exact ⟨j + 1, o2, by simpa using hj, ho2, by omega⟩
        · rcases hmem with h | h | h | h
          · exact absurd h (by simp)
          · exact absurd h (by simp)
          · exact ⟨0, CapOutcome.errAfterCreate, by simp, by simp,
              by simpa [CapEvent.camRestart.injEq] using h⟩
          · obtain ⟨j, o2, hj, ho2, hc⟩ := (ih (seq + 1) c).1 h
            exact ⟨j + 1, o2, by simpa using hj, ho2, by omega⟩
        · rcases hmem with h | h | h
          · exact absurd h (by simp)
          · exact ⟨0, CapOutcome.errBeforeCreate, by simp, by simp,
              by simpa [CapEvent.camRestart.injEq] using h⟩
          · obtain ⟨j, o2, hj, ho2, hc⟩ := (ih (seq + 1) c).1 h
            exact ⟨j + 1, o2, by simpa using hj, ho2, by omega⟩
      · rintro ⟨j, o2, hj, ho2, hc⟩
        cases j with
        | zero =>
            simp only [List.getElem?_cons_zero, Option.some.injEq] at hj
            rcases o <;> rcases o2 <;> simp_all [capTraceOf]
        | succ j =>
            simp only [List.getElem?_cons_succ] at hj
            have hrec := (ih (seq + 1) c).2 ⟨j, o2, hj, ho2, by omega⟩
            rcases o <;> simp [capTraceOf, hrec]

/-- Enqueued ids of a concatenated schedule. -/
theorem capQueueOf_append (a b : List CapOutcome) :
    ∀ seq, capQueueOf seq (a ++ b) = capQueueOf seq a ++ capQueueOf (seq + a.length) b := by
  induction a with
  | nil => intro seq; simp [capQueueOf]
  | cons o rest ih =>
      intro seq
      simp only [List.cons_append, capQueueOf, List.length_cons, List.append_eq]
      rw [ih (seq + 1), List.append_assoc]
      have h2 : seq + 1 + rest.length = seq + (rest.length + 1) := by omega
      rw [h2]

/-- The write-then-enqueue checker stays satisfied across one capture
iteration. -/
theorem wbeCap_iter (o : CapOutcome) (s : CapState)
    (h : (s.trace.foldl wbeCapStep (true, [])).1 = true) :
    (((capIter o s).trace).foldl wbeCapStep (true, [])).1 = true := by
  rcases hq : s.trace.foldl wbeCapStep (true, []) with ⟨b, acc⟩
  have hb : b = true := by rw [hq] at h; exact h
  subst hb
  cases o <;>
    simp [capIter, List.foldl_append, hq, wbeCapStep]

/-! ## Helper lemmas: upload worker -/

/-- `processBatch` never touches the batch list, the cycle log, or the cycle
timer; those belong to the surrounding loop body. -/
theorem processBatch_ctl (ok : Nat → Bool) :
    ∀ (l : List Nat) (s : UpState),
      (processBatch ok s l).batch = s.batch ∧
      (processBatch ok s l).cycles = s.cycles ∧
      (processBatch ok s l).lastUploadTime = s.lastUploadTime := by
  intro l
  induction l with
  | nil => intro s; simp [processBatch]
  | cons c rest ih =>
      intro s
      rw [processBatch]
      split
      · split
        · exact ih _
        · exact ih _
      · exact ih _

/-- Invariant carried through `processBatch`: `s` is the worker state, `l`
the chunks still to process in the current cycle, `A` the chunk ids that will
arrive in future polls. Chunk ids across attempts, the pending list and the
future are strictly increasing; disk files are accounted for; successes and
failures partition the attempts according to the client oracle. -/
structure PBInv (ok : Nat → Bool) (A : List Nat) (s : UpState) (l : List Nat) : Prop where
  orderly : List.Pairwise (· < ·) (s.attempts ++ (l ++ A))
  diskSeen : ∀ c ∈ s.disk, c ∈ s.attempts ∨ c ∈ l
  diskNodup : s.disk.Nodup
  uploadedOk : ∀ c ∈ s.uploaded, ok c = true ∧ c ∉ s.disk
  failedBad : ∀ c ∈ s.failed, ok c = false ∧ c ∈ s.disk
  attempted : ∀ c ∈ s.attempts, (ok c = true → c ∈ s.uploaded) ∧ (ok c = false → c ∈ s.failed)
  batchOnDisk : ∀ c ∈ l, c ∈ s.disk
  uploadedSub : s.uploaded.Sublist s.attempts
  failedSub : s.failed.Sublist s.attempts

/-- Processing a cycle's batch preserves the invariant and consumes the
pending list. -/
theorem processBatch_inv (ok : Nat → Bool) (A : List Nat) :
    ∀ (l : List Nat) (s : UpState), PBInv ok A s l → PBInv ok A (processBatch ok s l) [] := by
  intro l
  induction l with
  | nil => intro s h; rw [processBatch]; exact ⟨h.orderly, h.diskSeen, h.diskNodup,
      h.uploadedOk, h.failedBad, h.attempted, h.batchOnDisk, h.uploadedSub, h.failedSub⟩
  | cons c rest ih =>
      intro s h
      have hcdisk : c ∈ s.disk := h.batchOnDisk c (List.mem_cons_self c rest)
      have horder := h.orderly
      rw [List.cons_append] at horder
      have hparts := List.pairwise_append.1 horder
      have hcr : ∀ x ∈ rest ++ A, c < x := (List.pairwise_cons.1 hparts.2.1).1
      have horder2 : List.Pairwise (· < ·) ((s.attempts ++ [c]) ++ (rest ++ A)) := by
        rw [List.append_assoc, List.singleton_append]; exact horder
      have hrestne : ∀ x ∈ rest, x ≠ c := by
        intro x hx
        exact Nat.ne_of_gt (hcr x (List.mem_append_left A hx))
      rw [processBatch, if_pos hcdisk]
      dsimp only
      by_cases hok : ok c = true
      · rw [if_pos hok]
        refine ih _ ⟨horder2, ?_, h.diskNodup.erase c, ?_, ?_, ?_, ?_, ?_, ?_⟩
        · intro x hx
          have hx2 := (h.diskNodup.mem_erase_iff).1 hx
          rcases h.diskSeen x hx2.2 with hmem | hmem
          · exact Or.inl (List.mem_append_left [c] hmem)
          · rcases List.mem_cons.1 hmem with rfl | hmem2
            · exact absurd rfl hx2.1
            · exact Or.inr hmem2
        · intro x hx
          rcases List.mem_append.1 hx with hx2 | hx2
          · refine ⟨(h.uploadedOk x hx2).1, fun hcon => ?_⟩
            exact (h.uploadedOk x hx2).2 (List.mem_of_mem_erase hcon)
          · have hxc : x = c := by simpa using hx2
            subst hxc
            refine ⟨hok, fun hcon => ?_⟩
            exact absurd rfl ((h.diskNodup.mem_erase_iff).1 hcon).1
        · intro x hx
          have hb := h.failedBad x hx
          have hxc : x ≠ c := by
            intro hcon; rw [hcon] at hb; rw [hb.1] at hok; exact Bool.false_ne_true hok
          exact ⟨hb.1, (List.mem_erase_of_ne hxc).2 hb.2⟩
        · intro x hx
          rcases List.mem_append.1 hx with hx2 | hx2
          · refine ⟨fun ht => List.mem_append_left [c] ((h.attempted x hx2).1 ht),
              fun hf => (h.attempted x hx2).2 hf⟩
          · have hxc : x = c := by simpa using hx2
            subst hxc
            exact ⟨fun _ => List.mem_append_right _ (List.mem_singleton_self x),
              fun hf => absurd hok (by rw [hf]; exact Bool.false_ne_true)⟩
        · intro x hx
          exact (List.mem_erase_of_ne (hrestne x hx)).2
            (h.batchOnDisk x (List.mem_cons_of_mem c hx))
        · exact h.uploadedSub.append (List.Sublist.refl [c])
        · exact h.failedSub.trans (List.sublist_append_left s.attempts [c])
      · rw [if_neg hok]
        have hokf : ok c = false := by
          cases hcase : ok c
          · rfl
          · exact absurd hcase hok
        refine ih _ ⟨horder2, ?_, h.diskNodup, ?_, ?_, ?_, ?_, ?_, ?_⟩
        · intro x hx
          rcases h.diskSeen x hx with hmem | hmem
          · exact Or.inl (List.mem_append_left [c] hmem)
          · rcases List.mem_cons.1 hmem with rfl | hmem2
            · exact Or.inl (List.mem_append_right _ (List.mem_singleton_self x))
            · exact Or.inr hmem2
        · intro x hx
          exact h.uploadedOk x hx
        · intro x hx
          rcases List.mem_append.1 hx with hx2 | hx2
          · exact h.failedBad x hx2
          · have hxc : x = c := by simpa using hx2
            subst hxc
            exact ⟨hokf, hcdisk⟩
        · intro x hx
          rcases List.mem_append.1 hx with hx2 | hx2
          · refine ⟨fun ht => (h.attempted x hx2).1 ht,
              fun hf => List.mem_append_left [c] ((h.attempted x hx2).2 hf)⟩
          · have hxc : x = c := by simpa using hx2
            subst hxc
            exact ⟨fun ht => absurd ht hok,
              fun _ => List.mem_append_right _ (List.mem_singleton_self x)⟩
        · intro x hx
          exact h.batchOnDisk x (List.mem_cons_of_mem c hx)
        · exact h.uploadedSub.trans (List.sublist_append_left s.attempts [c])
        · exact h.failedSub.append (List.Sublist.refl [c])

/-- Invariant of the upload worker between poll iterations: the pending list
is exactly the batch field. -/
def UpInv (ok : Nat → Bool) (A : List Nat) (s : UpState) : Prop :=
  PBInv ok A s s.batch

/-- One poll iteration preserves the worker invariant, consuming the chunks
that arrive in it from the future list. -/
theorem uploadIter_inv (ok : Nat → Bool) (A : List Nat) (st : UpStep) (s : UpState)
    (hca : st.created = st.arrivals) (h : UpInv ok (st.arrivals ++ A) s) :
    UpInv ok A (uploadIter ok st s) := by
  have horder : List.Pairwise (· < ·) (s.attempts ++ (s.batch ++ (st.arrivals ++ A))) :=
    h.orderly
  have horder2 : List.Pairwise (· < ·) (s.attempts ++ ((s.batch ++ st.arrivals) ++ A)) := by
    rwa [List.append_assoc s.batch st.arrivals A]
  have hP1 := List.pairwise_append.1 horder
  have hP2 := List.pairwise_append.1 hP1.2.1
  have hP3 := List.pairwise_append.1 hP2.2.1
  have hlt : ∀ a ∈ s.attempts ++ s.batch, ∀ b ∈ st.arrivals, a < b := by
    intro a ha b hb
    rcases List.mem_append.1 ha with h1 | h1
    · exact hP1.2.2 a h1 b (List.mem_append_right _ (List.mem_append_left A hb))
    · exact hP2.2.2 a h1 b (List.mem_append_left A hb)
  have harrNodup : st.arrivals.Nodup := hP3.1.imp (fun hab => Nat.ne_of_lt hab)
  have hdisk_arr : ∀ x ∈ s.disk, x ∉ st.arrivals := by
    intro x hx hxa
    rcases h.diskSeen x hx with hm | hm
    · exact Nat.lt_irrefl x (hlt x (List.mem_append_left _ hm) x hxa)
    · exact Nat.lt_irrefl x (hlt x (List.mem_append_right _ hm) x hxa)
  have h1 : PBInv ok A
      { s with disk := s.disk ++ st.arrivals, batch := s.batch ++ st.arrivals }
      (s.batch ++ st.arrivals) := by
    refine ⟨horder2, ?_, ?_, ?_, ?_, h.attempted, ?_, h.uploadedSub, h.failedSub⟩
    · intro x hx
      rcases List.mem_append.1 hx with h1 | h1
      · rcases h.diskSeen x h1 with hm | hm
        · exact Or.inl hm
        · exact Or.inr (List.mem_append_left _ hm)
      · exact Or.inr (List.mem_append_right _ h1)
    · exact List.nodup_append.2 ⟨h.diskNodup, harrNodup, hdisk_arr⟩
    · intro x hx
      refine ⟨(h.uploadedOk x hx).1, fun hcon => ?_⟩
      rcases List.mem_append.1 hcon with h1 | h1
      · exact (h.uploadedOk x hx).2 h1
      · have hxa : x ∈ s.attempts := List.Sublist.mem hx h.uploadedSub
        exact Nat.lt_irrefl x (hlt x (List.mem_append_left _ hxa) x h1)
    · intro x hx
      exact ⟨(h.failedBad x hx).1, List.mem_append_left _ (h.failedBad x hx).2⟩
    · intro x hx
      rcases List.mem_append.1 hx with h1 | h1
      · exact List.mem_append_left _ (h.batchOnDisk x h1)
      · exact List.mem_append_right _ h1
  unfold uploadIter
  rw [hca]
  dsimp only
  by_cases hc : S3_UPLOAD_INTERVAL ≤ st.now - s.lastUploadTime ∨
      10 ≤ (s.batch ++ st.arrivals).length
  · rw [if_pos hc]
    by_cases he : (s.batch ++ st.arrivals).isEmpty = true
    · rw [if_pos he]
      exact h1
    · rw [if_neg he]
      have h1c : PBInv ok A
          { s with disk := s.disk ++ st.arrivals, batch := s.batch ++ st.arrivals,
                   cycles := s.cycles ++ [(s.batch ++ st.arrivals).length] }
          (s.batch ++ st.arrivals) :=
        ⟨h1.orderly, h1.diskSeen, h1.diskNodup, h1.uploadedOk, h1.failedBad,
          h1.attempted, h1.batchOnDisk, h1.uploadedSub, h1.failedSub⟩
      have hpost := processBatch_inv ok A (s.batch ++ st.arrivals) _ h1c
      exact ⟨hpost.orderly, hpost.diskSeen, hpost.diskNodup, hpost.uploadedOk,
        hpost.failedBad, hpost.attempted, hpost.batchOnDisk, hpost.uploadedSub,
        hpost.failedSub⟩
  · rw [if_neg hc]
    exact h1

/-- The worker invariant holds after any run whose poll environments respect
the capture thread's delivery discipline. -/
theorem uploadRunFrom_inv (ok : Nat → Bool) :
    ∀ (steps : List UpStep) (s : UpState),
      (∀ st ∈ steps, st.created = st.arrivals) →
      UpInv ok (steps.map UpStep.arrivals).flatten s →
      UpInv ok [] (uploadRunFrom ok steps s) := by
  intro steps
  induction steps with
  | nil => intro s _ h; exact h
  | cons st rest ih =>
      intro s hca h
      rw [uploadRunFrom]
      apply ih
      · intro x hx; exact hca x (List.mem_cons_of_mem _ hx)
      · exact uploadIter_inv ok (rest.map UpStep.arrivals).flatten st s
          (hca st (List.mem_cons_self _ _)) h

/-- The worker invariant at loop exit, from the initial state. -/
theorem uploadRun_inv (ok : Nat → Bool) (steps : List UpStep) (t0 : Nat)
    (h : StepsWF steps) : UpInv ok [] (uploadRun ok steps t0) := by
  apply uploadRunFrom_inv ok steps (initUp t0) h.2
  refine ⟨?_, ?_, ?_, ?_, ?_, ?_, ?_, ?_, ?_⟩
  · simpa [initUp] using h.1
  all_goals simp [initUp]

/-- The control fields of the upload worker (timer, batch, cycle log) do not
depend on the upload outcomes: per-chunk failures steer neither the trigger
condition nor the batch lifecycle. -/
theorem uploadIter_ctl (ok ok2 : Nat → Bool) (st : UpStep) (s s2 : UpState)
    (h1 : s.lastUploadTime = s2.lastUploadTime) (h2 : s.batch = s2.batch)
    (h3 : s.cycles = s2.cycles) :
    (uploadIter ok st s).lastUploadTime = (uploadIter ok2 st s2).lastUploadTime ∧
    (uploadIter ok st s).batch = (uploadIter ok2 st s2).batch ∧
    (uploadIter ok st s).cycles = (uploadIter ok2 st s2).cycles := by
  unfold uploadIter
  dsimp only
  rw [h1, h2, h3]
  by_cases hc : S3_UPLOAD_INTERVAL ≤ st.now - s2.lastUploadTime ∨
      10 ≤ (s2.batch ++ st.arrivals).length
  · rw [if_pos hc, if_pos hc]
    by_cases he : (s2.batch ++ st.arrivals).isEmpty = true
    · rw [if_pos he, if_pos he]
      exact ⟨rfl, rfl, rfl⟩
    · rw [if_neg he, if_neg he]
      refine ⟨rfl, rfl, ?_⟩
      rw [(processBatch_ctl ok _ _).2.1, (processBatch_ctl ok2 _ _).2.1]
  · rw [if_neg hc, if_neg hc]
    exact ⟨rfl, rfl, rfl⟩

/-- Run-level version of control independence from upload outcomes. -/
theorem uploadRunFrom_ctl (ok ok2 : Nat → Bool) :
    ∀ (steps : List UpStep) (s s2 : UpState),
      s.lastUploadTime = s2.lastUploadTime → s.batch = s2.batch → s.cycles = s2.cycles →
      (uploadRunFrom ok steps s).lastUploadTime = (uploadRunFrom ok2 steps s2).lastUploadTime ∧
      (uploadRunFrom ok steps s).batch = (uploadRunFrom ok2 steps s2).batch ∧
      (uploadRunFrom ok steps s).cycles = (uploadRunFrom ok2 steps s2).cycles := by
  intro steps
  induction steps with
  | nil => intro s s2 h1 h2 h3; exact ⟨h1, h2, h3⟩
  | cons st rest ih =>
      intro s s2 h1 h2 h3
      rw [uploadRunFrom, uploadRunFrom]
      obtain ⟨g1, g2, g3⟩ := uploadIter_ctl ok ok2 st s s2 h1 h2 h3
      exact ih _ _ g1 g2 g3

/-- The write-then-enqueue checker stays satisfied across a capture run. -/
theorem wbeCap_run (sched : List CapOutcome) :
    ∀ s : CapState, (s.trace.foldl wbeCapStep (true, [])).1 = true →
      (((capRunFrom sched s).trace).foldl wbeCapStep (true, [])).1 = true := by
  induction sched with
  | nil => intro s h; exact h
  | cons o rest ih => intro s h; exact ih _ (wbeCap_iter o s h)

/-! ## Helper lemmas: `save` -/

/-- Invariant of the `save` loop between frames: the only file on disk is the
one the open writer owns; every uploaded file was removed right after its
upload; chunks are uploaded in strictly increasing order; ids are bounded by
`chunk_counter`; the failure log is exactly the uploads the client refused. -/
structure SInv (ok : Nat → Bool) (s : SaveState) : Prop where
  diskCur : s.disk = s.current.toList
  removedEq : s.removed = s.uploads
  orderly : List.Pairwise (· < ·) (s.uploads ++ s.disk)
  bounded : ∀ c ∈ s.uploads ++ s.disk, c < s.chunkCounter
  failsEq : s.uploadFails = s.uploads.filter (fun c => !(ok c))
  curCounter : ∀ c, s.current = some c → c + 1 = s.chunkCounter

/-- The initial `save` state satisfies the invariant. -/
theorem sInv_init (ok : Nat → Bool) : SInv ok initSave := by
  refine ⟨rfl, rfl, ?_, ?_, rfl, ?_⟩ <;> simp [initSave]

/-- Rotation preserves the `save` invariant. -/
theorem sInv_rotate (ok : Nat → Bool) (s : SaveState) (h : SInv ok s) :
    SInv ok (saveRotate ok s) := by
  cases hcur : s.current with
  | none =>
      have hdisk : s.disk = [] := by rw [h.diskCur, hcur]; rfl
      have hpw : List.Pairwise (· < ·) s.uploads := by
        have := h.orderly; rwa [hdisk, List.append_nil] at this
      refine ⟨?_, ?_, ?_, ?_, ?_, ?_⟩ <;>
        simp only [saveRotate, hcur, hdisk]
      · simp
      · exact h.removedEq
      · refine List.pairwise_append.2 ⟨hpw, by simp, ?_⟩
        intro a ha b hb
        have hb2 : b = s.chunkCounter := by simpa using hb
        subst hb2
        exact h.bounded a (by rw [hdisk, List.append_nil]; exact ha)
      · intro c hc
        simp only [List.nil_append, List.mem_append] at hc
        rcases hc with hc | hc
        · have := h.bounded c (by rw [hdisk, List.append_nil]; exact hc)
          omega
        · have hc2 : c = s.chunkCounter := by simpa using hc
          omega
      · exact h.failsEq
      · intro c hc
        have : s.chunkCounter = c := by simpa using hc
        omega
  | some c0 =>
      have hdisk : s.disk = [c0] := by rw [h.diskCur, hcur]; rfl
      have hpw : List.Pairwise (· < ·) (s.uploads ++ [c0]) := by
        have := h.orderly; rwa [hdisk] at this
      refine ⟨?_, ?_, ?_, ?_, ?_, ?_⟩ <;>
        simp only [saveRotate, hcur, hdisk]
      · simp
      · rw [h.removedEq]
      · refine List.pairwise_append.2 ⟨by simpa using hpw, by simp, ?_⟩
        intro a ha b hb
        have hb2 : b = s.chunkCounter := by simpa using hb
        subst hb2
        refine h.bounded a ?_
        rw [hdisk]
        simpa using ha
      · intro c hc
        simp only [List.erase_cons_head, List.nil_append, List.mem_append] at hc
        rcases hc with hc | hc
        · have := h.bounded c (by rw [hdisk]; simpa using hc)
          omega
        · have hc2 : c = s.chunkCounter := by simpa using hc
          omega
      · rw [h.failsEq, List.filter_append]
        cases hok2 : ok c0 <;> simp [hok2]
      · intro c hc
        have : s.chunkCounter = c := by simpa using hc
        omega

/-- Writing a frame preserves the `save` invariant. -/
theorem sInv_write (ok : Nat → Bool) (s : SaveState) (h : SInv ok s) :
    SInv ok (saveWrite s) := by
  cases hcur : s.current with
  | none =>
      exact ⟨by simpa [saveWrite, hcur] using h.diskCur,
        by simpa [saveWrite, hcur] using h.removedEq,
        by simpa [saveWrite, hcur] using h.orderly,
        by simpa [saveWrite, hcur] using h.bounded,
        by simpa [saveWrite, hcur] using h.failsEq,
        by simp [saveWrite, hcur]⟩
  | some c0 =>
      exact ⟨by simpa [saveWrite, hcur] using h.diskCur,
        by simpa [saveWrite, hcur] using h.removedEq,
        by simpa [saveWrite, hcur] using h.orderly,
        by simpa [saveWrite, hcur] using h.bounded,
        by simpa [saveWrite, hcur] using h.failsEq,
        by simpa [saveWrite, hcur] using h.curCounter⟩

/-- One frame iteration preserves the `save` invariant. -/
theorem sInv_step (ok : Nat → Bool) (fpc : Nat) (s : SaveState) (h : SInv ok s) :
    SInv ok (saveStep ok fpc s) := by
  unfold saveStep
  by_cases hr : s.frameCounter % fpc = 0
  · rw [if_pos hr]; exact sInv_write ok _ (sInv_rotate ok s h)
  · rw [if_neg hr]; exact sInv_write ok s h

/-- Any number of frame iterations preserves the `save` invariant. -/
theorem sInv_steps (ok : Nat → Bool) (fpc : Nat) :
    ∀ (n : Nat) (s : SaveState), SInv ok s → SInv ok (saveSteps ok fpc n s) := by
  intro n
  induction n with
  | zero => intro s h; exact h
  | succ n ih => intro s h; exact ih _ (sInv_step ok fpc s h)

/-- What the `finally` block guarantees at exit: an empty disk, removals
matching uploads one for one, strictly increasing uploads, a failure log that
is exactly the refused uploads, and the in-progress chunk uploaded. -/
theorem saveFinal_facts (ok : Nat → Bool) (s : SaveState) (h : SInv ok s) :
    (saveFinal ok s).disk = [] ∧
    (saveFinal ok s).removed = (saveFinal ok s).uploads ∧
    List.Pairwise (· < ·) (saveFinal ok s).uploads ∧
    (saveFinal ok s).uploadFails = (saveFinal ok s).uploads.filter (fun c => !(ok c)) ∧
    (∀ c, s.current = some c → c ∈ (saveFinal ok s).uploads) := by
  cases hcur : s.current with
  | none =>
      have hdisk : s.disk = [] := by rw [h.diskCur, hcur]; rfl
      have hpw : List.Pairwise (· < ·) s.uploads := by
        have := h.orderly; rwa [hdisk, List.append_nil] at this
      simp only [saveFinal, hcur]
      exact ⟨hdisk, h.removedEq, hpw, h.failsEq, by intro c hc; exact absurd hc (by simp)⟩
  | some c0 =>
      have hdisk : s.disk = [c0] := by rw [h.diskCur, hcur]; rfl
      have hpw : List.Pairwise (· < ·) (s.uploads ++ [c0]) := by
        have := h.orderly; rwa [hdisk] at this
      have hcmem : c0 ∈ s.disk := by rw [hdisk]; exact List.mem_singleton_self c0
      simp only [saveFinal, hcur]
      rw [if_pos hcmem]
      refine ⟨by rw [hdisk]; simp, by rw [h.removedEq], hpw, ?_, ?_⟩
      · rw [h.failsEq, List.filter_append]
        cases hok2 : ok c0 <;> simp [hok2]
      · intro c hc
        have hcc : c0 = c := by injection hc
        subst hcc
        simp

/-- The release-before-upload checker stays satisfied across a rotation. -/
theorem wbeSave_rotate (ok : Nat → Bool) (s : SaveState)
    (h : (s.trace.foldl wbeSaveStep (true, [])).1 = true) :
    (((saveRotate ok s).trace).foldl wbeSaveStep (true, [])).1 = true := by
  rcases hq : s.trace.foldl wbeSaveStep (true, []) with ⟨b, acc⟩
  have hb : b = true := by rw [hq] at h; exact h
  subst hb
  cases hcur : s.current with
  | none => simp [saveRotate, hcur, List.foldl_append, hq, wbeSaveStep]
  | some c0 => simp [saveRotate, hcur, List.foldl_append, hq, wbeSaveStep]

/-- The release-before-upload checker stays satisfied across a frame write. -/
theorem wbeSave_write (s : SaveState)
    (h : (s.trace.foldl wbeSaveStep (true, [])).1 = true) :
    (((saveWrite s).trace).foldl wbeSaveStep (true, [])).1 = true := by
  rcases hq : s.trace.foldl wbeSaveStep (true, []) with ⟨b, acc⟩
  have hb : b = true := by rw [hq] at h; exact h
  subst hb
  cases hcur : s.current with
  | none => simpa [saveWrite, hcur] using hq ▸ rfl
  | some c0 => simp [saveWrite, hcur, List.foldl_append, hq, wbeSaveStep]

/-- The release-before-upload checker stays satisfied across frame
iterations. -/
theorem wbeSave_steps (ok : Nat → Bool) (fpc : Nat) :
    ∀ (n : Nat) (s : SaveState), (s.trace.foldl wbeSaveStep (true, [])).1 = true →
      (((saveSteps ok fpc n s).trace).foldl wbeSaveStep (true, [])).1 = true := by
  intro n
  induction n with
  | zero => intro s h; exact h
  | succ n ih =>
      intro s h
      refine ih _ ?_
      unfold saveStep
      by_cases hr : s.frameCounter % fpc = 0
      · rw [if_pos hr]; exact wbeSave_write _ (wbeSave_rotate ok s h)
      · rw [if_neg hr]; exact wbeSave_write _ h

/-- The release-before-upload checker stays satisfied across the `finally`
block. -/
theorem wbeSave_final (ok : Nat → Bool) (s : SaveState)
    (h : (s.trace.foldl wbeSaveStep (true, [])).1 = true) :
    (((saveFinal ok s).trace).foldl wbeSaveStep (true, [])).1 = true := by
  rcases hq : s.trace.foldl wbeSaveStep (true, []) with ⟨b, acc⟩
  have hb : b = true := by rw [hq] at h; exact h
  subst hb
  cases hcur : s.current with
  | none => simpa [saveFinal, hcur] using hq ▸ rfl
  | some c0 =>
      simp only [saveFinal, hcur]
      by_cases hcmem : c0 ∈ s.disk
      · rw [if_pos hcmem]
        simp [List.foldl_append, hq, wbeSaveStep]
      · rw [if_neg hcmem]
        simp [List.foldl_append, hq, wbeSaveStep]

/-! ## Helper lemmas: filenames and remote keys -/

/-- `digitChar` always yields a decimal digit character. -/
theorem digitChar_isDigit (n : Nat) : (digitChar n).isDigit = true := by
  unfold digitChar
  repeat' split
  all_goals decide

/-- The decimal rendering consists of digit characters only. -/
theorem natCharsAux_digits : ∀ (fuel n : Nat), (natCharsAux fuel n).all Char.isDigit = true := by
  intro fuel
  induction fuel with
  | zero => intro n; rfl
  | succ fuel ih =>
      intro n
      unfold natCharsAux
      split
      · simp [digitChar_isDigit]
      · simp [List.all_append, ih (n / 10), digitChar_isDigit]

/-- The decimal rendering of a number is nonempty. -/
theorem natChars_ne_nil (n : Nat) : natChars n ≠ [] := by
  unfold natChars natCharsAux
  split
  · simp
  · simp

/-- A zero-padded decimal rendering consists of digit characters only. -/
theorem pyPad4_digits (n : Nat) : (pyPad4 n).data.all Char.isDigit = true := by
  show (List.replicate (4 - (natChars n).length) '0' ++ natChars n).all Char.isDigit = true
  simp only [List.all_append, Bool.and_eq_true]
  constructor
  · simp [List.all_eq_true]
  · exact natCharsAux_digits (n + 1) n

/-- A zero-padded decimal rendering is nonempty. -/
theorem pyPad4_ne_nil (n : Nat) : (pyPad4 n).data ≠ [] := by
  show List.replicate (4 - (natChars n).length) '0' ++ natChars n ≠ []
  simp [natChars_ne_nil n]

/-- Character-level decomposition of a `save` chunk filename. -/
theorem streamChunkName_data (ts : String) (seq : Nat) :
    (streamChunkName ts seq).data =
      "chunk_".data ++ (ts.data ++ ('_' :: ((pyPad4 seq).data ++ ('.' :: ['m', 'p', '4'])))) := by
  simp only [streamChunkName, String.data_append, List.append_assoc]
  rfl

/-- Character-level decomposition of a Pi camera chunk filename. -/
theorem piChunkFilename_data (ts : String) :
    (piChunkFilename ts).data = "video_".data ++ (ts.data ++ ['.', 'h', '2', '6', '4']) := by
  simp only [piChunkFilename, VIDEO_FORMAT, String.data_append, List.append_assoc]
  rfl

/-- The spec's `chunk_<timestamp>_<seq>.<ext>` shape accepts every filename
the `save` rotation builds from a well-shaped timestamp. -/
theorem spec_accepts_streamChunkName (ts : String) (seq : Nat)
    (hts : spec_tsOk ts.data = true) :
    spec_chunkNameOk (streamChunkName ts seq) = true := by
  have hlen : ts.data.length = 15 := by
    have h1 := hts
    simp only [spec_tsOk, Bool.and_eq_true, decide_eq_true_eq] at h1
    exact h1.1.1.1
  have hdata := streamChunkName_data ts seq
  unfold spec_chunkNameOk
  rw [hdata]
  dsimp only
  have h6 : ("chunk_".data).length = 6 := rfl
  have htake6 := @List.take_left' Char "chunk_".data
    (ts.data ++ ('_' :: ((pyPad4 seq).data ++ ('.' :: ['m', 'p', '4'])))) 6 h6
  have hdrop6 := @List.drop_left' Char "chunk_".data
    (ts.data ++ ('_' :: ((pyPad4 seq).data ++ ('.' :: ['m', 'p', '4'])))) 6 h6
  have hdrop21 : ("chunk_".data ++ (ts.data ++ ('_' ::
      ((pyPad4 seq).data ++ ('.' :: ['m', 'p', '4']))))).drop 21 =
      '_' :: ((pyPad4 seq).data ++ ('.' :: ['m', 'p', '4'])) := by
    have e1 : (21 : Nat) = 6 + 15 := by norm_num
    rw [e1, ← List.drop_drop, hdrop6, List.drop_left' hlen]
  have hdrop22 : ("chunk_".data ++ (ts.data ++ ('_' ::
      ((pyPad4 seq).data ++ ('.' :: ['m', 'p', '4']))))).drop 22 =
      (pyPad4 seq).data ++ ('.' :: ['m', 'p', '4']) := by
    have e1 : (22 : Nat) = 21 + 1 := by norm_num
    rw [e1, ← List.drop_drop, hdrop21]
    rfl
  have htw : ((pyPad4 seq).data ++ ('.' :: ['m', 'p', '4'])).takeWhile Char.isDigit =
      (pyPad4 seq).data :=
    takeWhile_append_all Char.isDigit _ _ _ (pyPad4_digits seq) (by decide)
  have hdw : ((pyPad4 seq).data ++ ('.' :: ['m', 'p', '4'])).dropWhile Char.isDigit =
      '.' :: ['m', 'p', '4'] :=
    dropWhile_append_all Char.isDigit _ _ _ (pyPad4_digits seq) (by decide)
  rw [htake6, hdrop6, List.take_left' hlen, hdrop21, hdrop22, htw, hdw]
  simp [hts, List.length_pos, pyPad4_ne_nil seq]
  exact List.length_pos.2 (pyPad4_ne_nil seq)

/-- The spec's `chunk_...` shape rejects every Pi camera filename: those start
with `video_`, not `chunk_`. -/
theorem spec_rejects_piChunkFilename (ts : String) :
    spec_chunkNameOk (piChunkFilename ts) = false := by
  unfold spec_chunkNameOk
  rw [piChunkFilename_data]
  dsimp only
  have h6 : ("video_".data).length = 6 := rfl
  rw [@List.take_left' Char "video_".data (ts.data ++ ['.', 'h', '2', '6', '4']) 6 h6]
  rfl

/-- `os.path.basename` of `dir/name` is `name` when `name` has no slash. -/
theorem pyBasename_append (dir name : String) (h : '/' ∉ name.data) :
    pyBasename (dir ++ "/" ++ name) = name := by
  have hall : name.data.reverse.all (fun c => c != '/') = true := by
    rw [List.all_eq_true]
    intro c hc
    have hmem : c ∈ name.data := List.mem_reverse.1 hc
    have hne : c ≠ '/' := fun he => h (he ▸ hmem)
    simpa using hne
  have hdata : (dir ++ "/" ++ name).data = (dir.data ++ ['/']) ++ name.data := by
    simp only [String.data_append, List.append_assoc]
  show String.mk (basenameChars (dir ++ "/" ++ name).data) = name
  rw [hdata]
  unfold basenameChars
  rw [List.reverse_append, List.reverse_append]
  have hrev : (['/'] : List Char).reverse = ['/'] := rfl
  rw [hrev]
  have : name.data.reverse ++ (['/'] ++ dir.data.reverse) =
      name.data.reverse ++ ('/' :: dir.data.reverse) := by simp
  rw [this, takeWhile_append_all _ _ _ _ hall (by decide), List.reverse_reverse]

/-- Every character of a well-shaped timestamp is a digit or an underscore. -/
theorem spec_tsOk_mem (l : List Char) (h : spec_tsOk l = true) :
    ∀ c ∈ l, c.isDigit = true ∨ c = '_' := by
  simp only [spec_tsOk, Bool.and_eq_true, decide_eq_true_eq] at h
  obtain ⟨⟨⟨hlen, h8⟩, hu⟩, h9⟩ := h
  intro c hc
  have e0 : l.take 8 ++ l.drop 8 = l := List.take_append_drop 8 l
  have e1 : (l.drop 8).take 1 ++ (l.drop 8).drop 1 = l.drop 8 := List.take_append_drop 1 _
  have e2 : (l.drop 8).drop 1 = l.drop 9 := by
    rw [List.drop_drop]
  rw [← e0] at hc
  rcases List.mem_append.1 hc with hm | hm
  · exact Or.inl ((List.all_eq_true.1 h8) c hm)
  · rw [← e1] at hm
    rcases List.mem_append.1 hm with hm2 | hm2
    · rw [hu] at hm2
      exact Or.inr (by simpa using hm2)
    · rw [e2] at hm2
      exact Or.inl ((List.all_eq_true.1 h9) c hm2)

/-- A `save` chunk filename contains no slash. -/
theorem streamChunkName_no_slash (ts : String) (seq : Nat)
    (hts : spec_tsOk ts.data = true) : '/' ∉ (streamChunkName ts seq).data := by
  rw [streamChunkName_data]
  intro hmem
  simp only [List.mem_append, List.mem_cons] at hmem
  rcases hmem with hm | hm | hm | hm
  · exact absurd hm (by decide)
  · rcases spec_tsOk_mem ts.data hts '/' hm with hd | hd
    · exact absurd hd (by decide)
    · exact absurd hd (by decide)
  · exact absurd hm (by decide)
  · rcases hm with hm | hm
    · have := List.all_eq_true.1 (pyPad4_digits seq) '/' hm
      exact absurd this (by decide)
    · simp at hm

/-! ## Claim theorems -/

/-- C10: for every input and every storage-client outcome, `upload_to_s3`
returns normally (the `except` clause swallows the exception and only prints);
no error ever propagates to the caller, and the value returned to the caller
(Python's `None`, modelled as `()`) is identical whether the client succeeded
or failed — the caller cannot distinguish the two from the result. -/
theorem C10_upload_swallows (localFile bucket : String) (r r2 : Except String Unit) :
    (∃ msgs, upload_to_s3 localFile bucket r = Except.ok ((), msgs)) ∧
    (upload_to_s3 localFile bucket r).toOption.map Prod.fst =
      (upload_to_s3 localFile bucket r2).toOption.map Prod.fst := by
  cases r <;> cases r2 <;> exact ⟨⟨_, rfl⟩, rfl⟩

/-- C3: write-then-enqueue ordering holds for every chunk on every schedule,
in both pipelines: in the Pi camera capture loop every `enqueue` event is
preceded by the matching encoder-stop event, and in the RTSP `save` loop
every `upload_to_s3` call is preceded by the matching writer release. -/
theorem C3_write_then_enqueue (sched : List CapOutcome) (ok : Nat → Bool) (fps n : Nat) :
    wbeCapOk (capRun sched).trace = true ∧
    wbeSaveOk (saveRun ok fps n).trace = true := by
  constructor
  · exact wbeCap_run sched initCap rfl
  · exact wbeSave_final ok _ (wbeSave_steps ok (fpcOf fps) n initSave rfl)

/-- C5: chunks are uploaded in production order. In the Pi camera worker,
whenever the capture thread delivers chunk ids in strictly increasing
production order (each exactly once, its file written in the same poll
window), the sequence of upload attempts is strictly increasing — FIFO, never
out of order. The RTSP `save` path likewise uploads chunk numbers in strictly
increasing order. -/
theorem C5_fifo_upload_order (ok : Nat → Bool) (steps : List UpStep) (t0 : Nat)
    (okS : Nat → Bool) (fps n : Nat) (hwf : StepsWF steps) :
    List.Pairwise (· < ·) (uploadRun ok steps t0).attempts ∧
    List.Pairwise (· < ·) (saveRun okS fps n).uploads := by
  constructor
  · have h := uploadRun_inv ok steps t0 hwf
    exact List.Pairwise.sublist (List.sublist_append_left _ _) h.orderly
  · exact (saveFinal_facts okS _ (sInv_steps okS (fpcOf fps) n initSave (sInv_init okS))).2.2.1

/-- Witness for C5: a concrete run with two chunks arriving in order and then
a fired cycle, and a concrete 61-frame `save` run producing two chunks. -/
theorem C5_fifo_upload_order_witness :
    StepsWF [⟨400, [0, 1], [0, 1]⟩] ∧
    List.Pairwise (· < ·) (uploadRun (fun _ => true) [⟨400, [0, 1], [0, 1]⟩] 0).attempts ∧
    List.Pairwise (· < ·) (saveRun (fun _ => true) 1 61).uploads := by
  have h := C5_fifo_upload_order (fun _ => true) [⟨400, [0, 1], [0, 1]⟩] 0
    (fun _ => true) 1 61 (by constructor <;> decide)
  exact ⟨by constructor <;> decide, h.1, h.2⟩

/-- C9 counterexample: the Pi camera path produces chunk files named
`video_<timestamp>.h264`; at the well-shaped timestamp `20240101_120000` the
produced filename does NOT have the claimed `chunk_<YYYYMMDD_HHMMSS>_<seq>.<ext>`
form (no `chunk_` stem, no sequence number), refuting the claim for these
chunks. -/
theorem C9_counterexample :
    spec_tsOk ("20240101_120000" : String).data = true ∧
    piChunkFilename "20240101_120000" = "video_20240101_120000.h264" ∧
    spec_chunkNameOk (piChunkFilename "20240101_120000") = false := by
  refine ⟨by decide, rfl, by decide⟩

/-- C9 (amended): in the RTSP ingest path, chunk files are named
`chunk_<YYYYMMDD_HHMMSS>_<seq>.mp4` (under the fixed `/tmp/video_chunks`
directory) and the remote key is the fixed prefix `video_chunks/` plus the
filename, preserving the filename; in the Pi camera path the remote key is
likewise `<prefix><filename>`, but the local filename is
`video_<YYYYMMDD_HHMMSS>.h264`, which does not have the `chunk_..._<seq>`
form. -/
theorem C9_naming (ts : String) (seq : Nat) (pfx fname : String)
    (hts : spec_tsOk ts.data = true) :
    spec_chunkNameOk (streamChunkName ts seq) = true ∧
    uploadS3Key (streamChunkPath ts seq) = "video_chunks/" ++ streamChunkName ts seq ∧
    piS3Key pfx fname = pfx ++ fname ∧
    spec_chunkNameOk (piChunkFilename ts) = false := by
  refine ⟨spec_accepts_streamChunkName ts seq hts, ?_, rfl,
    spec_rejects_piChunkFilename ts⟩
  unfold uploadS3Key streamChunkPath
  rw [pyBasename_append _ _ (streamChunkName_no_slash ts seq hts)]

/-- Witness for C9 at a concrete timestamp and sequence number. -/
theorem C9_naming_witness :
    spec_tsOk ("20240101_120000" : String).data = true ∧
    spec_chunkNameOk (streamChunkName "20240101_120000" 7) = true ∧
    uploadS3Key (streamChunkPath "20240101_120000" 7) =
      "video_chunks/" ++ streamChunkName "20240101_120000" 7 := by
  have h := C9_naming "20240101_120000" 7 "pi_videos/" "f" (by decide)
  exact ⟨by decide, h.1, h.2.1⟩

set_option maxRecDepth 10000 in
/-- C1 counterexample: in the RTSP `save` path, run 61 frames at 1 fps (so
chunk 0 rotates after 60 frames) with a storage client that fails every
upload. Chunk 0's upload fails (it is in the failure log), yet `save` removes
its local file anyway — `upload_to_s3` swallowed the error — so the file is
NOT left on disk, refuting the claim. -/
theorem C1_counterexample :
    0 ∈ (saveRun (fun _ => false) 1 61).uploadFails ∧
    0 ∉ (saveRun (fun _ => false) 1 61).disk ∧
    0 ∈ (saveRun (fun _ => false) 1 61).removed := by
  decide

/-- C1 (amended): in the Pi camera upload worker, a chunk whose upload fails
has its error logged, keeps its local file on disk, is dropped from the batch
and is never re-queued (it is attempted exactly once); in the RTSP `save`
path, however, `upload_to_s3` swallows the client error and `save` removes
the local file anyway, so a failed chunk's file does not stay on disk there. -/
theorem C1_failed_upload (ok : Nat → Bool) (steps : List UpStep) (t0 : Nat)
    (okS : Nat → Bool) (fps n : Nat) (c : Nat) (hwf : StepsWF steps) :
    (c ∈ (uploadRun ok steps t0).failed →
      ok c = false ∧
      c ∈ (uploadRun ok steps t0).disk ∧
      c ∉ (uploadRun ok steps t0).batch ∧
      (uploadRun ok steps t0).attempts.count c = 1) ∧
    (c ∈ (saveRun okS fps n).uploadFails →
      okS c = false ∧
      c ∈ (saveRun okS fps n).removed ∧
      c ∉ (saveRun okS fps n).disk) := by
  constructor
  · intro hc
    have h := uploadRun_inv ok steps t0 hwf
    have hfb := h.failedBad c hc
    have hatt : c ∈ (uploadRun ok steps t0).attempts := List.Sublist.mem hc h.failedSub
    have hnodup : (uploadRun ok steps t0).attempts.Nodup :=
      (List.Pairwise.sublist (List.sublist_append_left _ _) h.orderly).imp
        (fun hab => Nat.ne_of_lt hab)
    refine ⟨hfb.1, hfb.2, ?_, List.count_eq_one_of_mem hnodup hatt⟩
    intro hbatch
    have hsep := (List.pairwise_append.1 h.orderly).2.2
    exact Nat.lt_irrefl c (hsep c hatt c (List.mem_append_left _ hbatch))
  · intro hc
    have F := saveFinal_facts okS _ (sInv_steps okS (fpcOf fps) n initSave (sInv_init okS))
    have hru : saveRun okS fps n = saveFinal okS (saveSteps okS (fpcOf fps) n initSave) := rfl
    rw [hru] at hc ⊢
    rw [F.2.2.2.1] at hc
    have hmem := List.mem_filter.1 hc
    refine ⟨by simpa using hmem.2, ?_, ?_⟩
    · rw [F.2.1]; exact hmem.1
    · rw [F.1]; exact List.not_mem_nil c

set_option maxRecDepth 10000 in
/-- Witness for C1 at a concrete failing run on both paths. -/
theorem C1_failed_upload_witness :
    StepsWF [⟨400, [0], [0]⟩] ∧
    0 ∈ (uploadRun (fun _ => false) [⟨400, [0], [0]⟩] 0).failed ∧
    0 ∈ (uploadRun (fun _ => false) [⟨400, [0], [0]⟩] 0).disk ∧
    (uploadRun (fun _ => false) [⟨400, [0], [0]⟩] 0).attempts.count 0 = 1 ∧
    0 ∈ (saveRun (fun _ => false) 1 61).removed := by
  have h := C1_failed_upload (fun _ => false) [⟨400, [0], [0]⟩] 0
    (fun _ => false) 1 61 0 (by constructor <;> decide)
  have h1 := h.1 (by decide)
  have h2 := h.2 (by decide)
  exact ⟨by constructor <;> decide, by decide, h1.2.1, h1.2.2.2, h2.2.1⟩

/-- C2 counterexample: at a poll with an empty accumulated batch and elapsed
time exactly 300 since the last cycle, the claimed trigger condition (elapsed
≥ interval) holds, yet no upload cycle happens: nothing is logged to the
cycle log and — against the claim's "the cycle timer resets after each
cycle" — `last_upload_time` stays 0 instead of becoming 300. -/
theorem C2_counterexample :
    S3_UPLOAD_INTERVAL ≤ 300 - (initUp 0).lastUploadTime ∧
    (uploadIter (fun _ => true) ⟨300, [], []⟩ (initUp 0)).cycles = (initUp 0).cycles ∧
    (uploadIter (fun _ => true) ⟨300, [], []⟩ (initUp 0)).lastUploadTime = 0 ∧
    (uploadIter (fun _ => true) ⟨300, [], []⟩ (initUp 0)).lastUploadTime ≠ 300 := by
  refine ⟨by decide, by decide, by decide, by decide⟩

/-- C2 (amended): an upload cycle fires (a "Starting upload" entry is logged,
the batch is processed and cleared, and the timer resets to the poll's
current time) iff the trigger condition — elapsed time ≥ 300 OR accumulated
count ≥ 10 — holds AND the accumulated batch is non-empty. The two trigger
disjuncts are independent of each other. On polls where that fails, the
timer and the accumulated batch are left unchanged. -/
theorem C2_trigger_iff (ok : Nat → Bool) (st : UpStep) (s : UpState) :
    ((uploadIter ok st s).cycles ≠ s.cycles ↔
      ((S3_UPLOAD_INTERVAL ≤ st.now - s.lastUploadTime ∨
          10 ≤ (s.batch ++ st.arrivals).length) ∧ s.batch ++ st.arrivals ≠ [])) ∧
    (((S3_UPLOAD_INTERVAL ≤ st.now - s.lastUploadTime ∨
          10 ≤ (s.batch ++ st.arrivals).length) ∧ s.batch ++ st.arrivals ≠ []) →
      (uploadIter ok st s).cycles = s.cycles ++ [(s.batch ++ st.arrivals).length] ∧
      (uploadIter ok st s).lastUploadTime = st.now ∧
      (uploadIter ok st s).batch = []) ∧
    (¬ ((S3_UPLOAD_INTERVAL ≤ st.now - s.lastUploadTime ∨
          10 ≤ (s.batch ++ st.arrivals).length) ∧ s.batch ++ st.arrivals ≠ []) →
      (uploadIter ok st s).cycles = s.cycles ∧
      (uploadIter ok st s).lastUploadTime = s.lastUploadTime ∧
      (uploadIter ok st s).batch = s.batch ++ st.arrivals) := by
  unfold uploadIter
  dsimp only
  by_cases hc : S3_UPLOAD_INTERVAL ≤ st.now - s.lastUploadTime ∨
      10 ≤ (s.batch ++ st.arrivals).length
  · rw [if_pos hc]
    by_cases he : (s.batch ++ st.arrivals).isEmpty = true
    · rw [if_pos he]
      have hnil : s.batch ++ st.arrivals = [] := List.isEmpty_iff.1 he
      refine ⟨?_, ?_, ?_⟩
      · simp [hnil]
      · intro hcon; exact absurd hnil hcon.2
      · intro _; exact ⟨rfl, rfl, rfl⟩
    · rw [if_neg he]
      have hnnil : s.batch ++ st.arrivals ≠ [] := by
        intro hcon; exact he (List.isEmpty_iff.2 hcon)
      have hcyc : (processBatch ok
          { s with disk := s.disk ++ st.created, batch := s.batch ++ st.arrivals,
                   cycles := s.cycles ++ [(s.batch ++ st.arrivals).length] }
          (s.batch ++ st.arrivals)).cycles =
          s.cycles ++ [(s.batch ++ st.arrivals).length] :=
        (processBatch_ctl ok _ _).2.1
      refine ⟨?_, ?_, ?_⟩
      · rw [hcyc]
        constructor
        · intro _; exact ⟨hc, hnnil⟩
        · intro _
          intro hcon
          have := congrArg List.length hcon
          simp at this
      · intro _
        exact ⟨hcyc, rfl, rfl⟩
      · intro hcon
        exact absurd ⟨hc, hnnil⟩ hcon
  · rw [if_neg hc]
    refine ⟨?_, ?_, ?_⟩
    · simp only [ne_eq, not_true_eq_false, false_iff]
      intro hcon
      exact hc hcon.1
    · intro hcon
      exact absurd hcon.1 hc
    · intro _; exact ⟨rfl, rfl, rfl⟩

/-- Witness for C2: the time path alone fires a cycle (elapsed 400, one
chunk), the count path alone fires one (elapsed 5, ten chunks), and a poll
under both thresholds fires none. -/
theorem C2_trigger_iff_witness :
    (uploadIter (fun _ => true) ⟨400, [0], [0]⟩ (initUp 0)).cycles = [1] ∧
    (uploadIter (fun _ => true) ⟨5, List.range 10, List.range 10⟩ (initUp 0)).cycles = [10] ∧
    (uploadIter (fun _ => true) ⟨5, [0], [0]⟩ (initUp 0)).cycles = [] := by
  refine ⟨?_, ?_, ?_⟩
  · have h := (C2_trigger_iff (fun _ => true) ⟨400, [0], [0]⟩ (initUp 0)).2.1
      ⟨Or.inl (by decide), by decide⟩
    simpa [initUp] using h.1
  · have h := (C2_trigger_iff (fun _ => true) ⟨5, List.range 10, List.range 10⟩ (initUp 0)).2.1
      ⟨Or.inr (by decide), by decide⟩
    simpa [initUp] using h.1
  · have h := (C2_trigger_iff (fun _ => true) ⟨5, [0], [0]⟩ (initUp 0)).2.2
      (by intro hcon; rcases hcon.1 with h1 | h1 <;> revert h1 <;> decide)
    simpa [initUp] using h.1

/-- C4 counterexample: one capture iteration failing after the encoder
created the output file leaves the partial file on disk — it is NOT discarded
as the claim states — while (correctly) never enqueuing it. -/
theorem C4_counterexample :
    0 ∈ (capRun [CapOutcome.errAfterCreate]).disk ∧
    (capRun [CapOutcome.errAfterCreate]).queue = [] := by
  decide

/-- C4 (amended): on a write/encode error mid-chunk, the partial chunk is
never enqueued, the error is logged, the camera restart (after the 1-second
backoff) is attempted, and capture resumes — every scheduled iteration still
runs and every later successful chunk is still enqueued; but the partially
written file is NOT deleted: it remains on disk, orphaned. -/
theorem C4_midchunk_error (sched : List CapOutcome) (i : Nat)
    (herr : sched[i]? = some CapOutcome.errAfterCreate) :
    i ∉ (capRun sched).queue ∧
    CapEvent.enqueue i ∉ (capRun sched).trace ∧
    CapEvent.errLogged i ∈ (capRun sched).trace ∧
    CapEvent.camRestart i ∈ (capRun sched).trace ∧
    i ∈ (capRun sched).disk ∧
    (capRun sched).seq = sched.length ∧
    (∀ j, sched[j]? = some CapOutcome.ok → j ∈ (capRun sched).queue) := by
  have hq : (capRun sched).queue = capQueueOf 0 sched := by
    have := capRunFrom_queue sched initCap
    simpa [capRun, initCap] using this
  have hd : (capRun sched).disk = capDiskOf 0 sched := by
    have := capRunFrom_disk sched initCap
    simpa [capRun, initCap] using this
  have ht : (capRun sched).trace = capTraceOf 0 sched := by
    have := capRunFrom_trace sched initCap
    simpa [capRun, initCap] using this
  have hs : (capRun sched).seq = sched.length := by
    have := capRunFrom_seq sched initCap
    simpa [capRun, initCap] using this
  refine ⟨?_, ?_, ?_, ?_, ?_, hs, ?_⟩
  · rw [hq]
    intro hcon
    obtain ⟨j, hj, hij⟩ := (mem_capQueueOf sched 0 i).1 hcon
    have hji : j = i := by omega
    rw [hji, herr] at hj
    exact absurd (Option.some.inj hj) (by decide)
  · rw [ht]
    intro hcon
    obtain ⟨j, hj, hij⟩ := (enqueue_mem_capTraceOf sched 0 i).1 hcon
    have hji : j = i := by omega
    rw [hji, herr] at hj
    exact absurd (Option.some.inj hj) (by decide)
  · rw [ht]
    exact (errLogged_mem_capTraceOf sched 0 i).2 ⟨i, CapOutcome.errAfterCreate, herr,
      by decide, by omega⟩
  · rw [ht]
    exact (camRestart_mem_capTraceOf sched 0 i).2 ⟨i, CapOutcome.errAfterCreate, herr,
      by decide, by omega⟩
  · rw [hd]
    exact (mem_capDiskOf sched 0 i).2 ⟨i, CapOutcome.errAfterCreate, herr,
      by decide, by omega⟩
  · intro j hj
    rw [hq]
    exact (mem_capQueueOf sched 0 j).2 ⟨j, hj, by omega⟩

/-- Witness for C4: an error iteration followed by a successful one. -/
theorem C4_midchunk_error_witness :
    ([CapOutcome.errAfterCreate, CapOutcome.ok][0]? = some CapOutcome.errAfterCreate) ∧
    0 ∈ (capRun [CapOutcome.errAfterCreate, CapOutcome.ok]).disk ∧
    0 ∉ (capRun [CapOutcome.errAfterCreate, CapOutcome.ok]).queue ∧
    1 ∈ (capRun [CapOutcome.errAfterCreate, CapOutcome.ok]).queue := by
  have h := C4_midchunk_error [CapOutcome.errAfterCreate, CapOutcome.ok] 0 (by decide)
  exact ⟨by decide, h.2.2.2.2.1, h.1, h.2.2.2.2.2.2 1 (by decide)⟩

/-- C6: a chunk whose upload succeeds has its local file deleted right after
the upload (`os.remove`), is gone from the batch and never reappears in a
later one, and is attempted and uploaded exactly once; in the RTSP `save`
path a successfully uploaded chunk is likewise removed and uploaded exactly
once. -/
theorem C6_success_cleanup (ok : Nat → Bool) (steps : List UpStep) (t0 : Nat)
    (okS : Nat → Bool) (fps n : Nat) (c : Nat) (hwf : StepsWF steps) :
    (c ∈ (uploadRun ok steps t0).uploaded →
      ok c = true ∧
      c ∉ (uploadRun ok steps t0).disk ∧
      c ∉ (uploadRun ok steps t0).batch ∧
      (uploadRun ok steps t0).attempts.count c = 1 ∧
      (uploadRun ok steps t0).uploaded.count c = 1) ∧
    (c ∈ (saveRun okS fps n).uploads →
      c ∈ (saveRun okS fps n).removed ∧
      c ∉ (saveRun okS fps n).disk ∧
      (saveRun okS fps n).uploads.count c = 1) := by
  constructor
  · intro hc
    have h := uploadRun_inv ok steps t0 hwf
    have hup := h.uploadedOk c hc
    have hatt : c ∈ (uploadRun ok steps t0).attempts := List.Sublist.mem hc h.uploadedSub
    have hnodup : (uploadRun ok steps t0).attempts.Nodup :=
      (List.Pairwise.sublist (List.sublist_append_left _ _) h.orderly).imp
        (fun hab => Nat.ne_of_lt hab)
    have hupnodup : (uploadRun ok steps t0).uploaded.Nodup :=
      List.Sublist.nodup h.uploadedSub hnodup
    refine ⟨hup.1, hup.2, ?_, List.count_eq_one_of_mem hnodup hatt,
      List.count_eq_one_of_mem hupnodup hc⟩
    intro hbatch
    have hsep := (List.pairwise_append.1 h.orderly).2.2
    exact Nat.lt_irrefl c (hsep c hatt c (List.mem_append_left _ hbatch))
  · intro hc
    have F := saveFinal_facts okS _ (sInv_steps okS (fpcOf fps) n initSave (sInv_init okS))
    have hru : saveRun okS fps n = saveFinal okS (saveSteps okS (fpcOf fps) n initSave) := rfl
    rw [hru] at hc ⊢
    have hnodup : (saveFinal okS (saveSteps okS (fpcOf fps) n initSave)).uploads.Nodup :=
      F.2.2.1.imp (fun hab => Nat.ne_of_lt hab)
    refine ⟨?_, ?_, List.count_eq_one_of_mem hnodup hc⟩
    · rw [F.2.1]; exact hc
    · rw [F.1]; exact List.not_mem_nil c

set_option maxRecDepth 10000 in
/-- Witness for C6 at concrete successful runs on both paths. -/
theorem C6_success_cleanup_witness :
    StepsWF [⟨400, [0, 1], [0, 1]⟩] ∧
    0 ∈ (uploadRun (fun _ => true) [⟨400, [0, 1], [0, 1]⟩] 0).uploaded ∧
    0 ∉ (uploadRun (fun _ => true) [⟨400, [0, 1], [0, 1]⟩] 0).disk ∧
    (uploadRun (fun _ => true) [⟨400, [0, 1], [0, 1]⟩] 0).uploaded.count 0 = 1 ∧
    0 ∈ (saveRun (fun _ => true) 1 61).removed := by
  have h := C6_success_cleanup (fun _ => true) [⟨400, [0, 1], [0, 1]⟩] 0
    (fun _ => true) 1 61 0 (by constructor <;> decide)
  have h1 := h.1 (by decide)
  have h2 := h.2 (by decide)
  exact ⟨by constructor <;> decide, by decide, h1.2.1, h1.2.2.2.2, h2.1⟩

/-- C7 counterexample: the upload worker checks `running` at the top of its
loop and exits with no final drain. A chunk enqueued during the last poll
window (chunk 0, arriving 5 seconds in, both thresholds unmet) is still in
the batch at exit, was never attempted, never uploaded, and its file still
sits on disk — an enqueued chunk left unprocessed at exit, refuting the
claimed final drain-and-upload pass. -/
theorem C7_counterexample :
    (uploadRun (fun _ => true) [⟨5, [0], [0]⟩] 0).batch = [0] ∧
    (uploadRun (fun _ => true) [⟨5, [0], [0]⟩] 0).attempts = [] ∧
    (uploadRun (fun _ => true) [⟨5, [0], [0]⟩] 0).uploaded = [] ∧
    (uploadRun (fun _ => true) [⟨5, [0], [0]⟩] 0).disk = [0] := by
  decide

/-- C7 (amended): on shutdown the in-progress chunk is closed and enqueued as
a terminal partial chunk (modelled as a final completed iteration of the
capture loop; in the RTSP path the `finally` block uploads the in-progress
chunk), but the Pi camera upload worker performs NO final drain-and-upload
pass: every chunk still in its batch at exit was never attempted and its
file stays on disk. -/
theorem C7_shutdown (sched : List CapOutcome) (ok : Nat → Bool)
    (steps : List UpStep) (t0 : Nat) (okS : Nat → Bool) (fps n : Nat)
    (hwf : StepsWF steps) :
    (capRun (sched ++ [CapOutcome.ok])).queue = (capRun sched).queue ++ [sched.length] ∧
    (∀ c ∈ (uploadRun ok steps t0).batch,
      c ∉ (uploadRun ok steps t0).attempts ∧ c ∈ (uploadRun ok steps t0).disk) ∧
    (∀ c, (saveSteps okS (fpcOf fps) n initSave).current = some c →
      c ∈ (saveRun okS fps n).uploads) := by
  refine ⟨?_, ?_, ?_⟩
  · have h1 := capRunFrom_queue (sched ++ [CapOutcome.ok]) initCap
    have h2 := capRunFrom_queue sched initCap
    have h3 := capQueueOf_append sched [CapOutcome.ok] 0
    have h4 : capQueueOf (0 + sched.length) [CapOutcome.ok] = [sched.length] := by
      simp [capQueueOf]
    simp only [capRun, initCap] at h1 h2 ⊢
    rw [h1, h2, h3, h4]
    simp
  · intro c hbatch
    have h := uploadRun_inv ok steps t0 hwf
    constructor
    · intro hatt
      have hsep := (List.pairwise_append.1 h.orderly).2.2
      exact Nat.lt_irrefl c (hsep c hatt c (List.mem_append_left _ hbatch))
    · exact h.batchOnDisk c hbatch
  · exact (saveFinal_facts okS _ (sInv_steps okS (fpcOf fps) n initSave (sInv_init okS))).2.2.2.2

/-- Witness for C7: a one-chunk session whose terminal chunk is enqueued, and
a worker exiting with an unattempted batched chunk. -/
theorem C7_shutdown_witness :
    StepsWF [⟨5, [0], [0]⟩] ∧
    (capRun ([CapOutcome.ok] ++ [CapOutcome.ok])).queue =
      (capRun [CapOutcome.ok]).queue ++ [1] ∧
    0 ∈ (uploadRun (fun _ => true) [⟨5, [0], [0]⟩] 0).batch ∧
    0 ∉ (uploadRun (fun _ => true) [⟨5, [0], [0]⟩] 0).attempts := by
  have h := C7_shutdown [CapOutcome.ok] (fun _ => true) [⟨5, [0], [0]⟩] 0
    (fun _ => true) 1 0 (by constructor <;> decide)
  exact ⟨by constructor <;> decide, h.1, by decide, (h.2.1 0 (by decide)).1⟩

/-- C8: transient capture-side errors never terminate the session — the
capture loop completes every scheduled iteration no matter the error pattern,
and later successful chunks are still enqueued; upload-side errors are
isolated per chunk — an attempted chunk whose own upload succeeds ends up
uploaded regardless of other chunks' failures, and the cycle structure
(cycle log and batch lifecycle) is identical under any pattern of upload
outcomes, so failures block neither the rest of the batch nor future
cycles. -/
theorem C8_error_isolation (sched : List CapOutcome) (ok ok2 : Nat → Bool)
    (steps : List UpStep) (t0 : Nat) (c : Nat) (hwf : StepsWF steps) :
    (capRun sched).seq = sched.length ∧
    (∀ j, sched[j]? = some CapOutcome.ok → j ∈ (capRun sched).queue) ∧
    (c ∈ (uploadRun ok steps t0).attempts → ok c = true →
      c ∈ (uploadRun ok steps t0).uploaded) ∧
    (uploadRun ok steps t0).cycles = (uploadRun ok2 steps t0).cycles ∧
    (uploadRun ok steps t0).batch = (uploadRun ok2 steps t0).batch := by
  have hctl := uploadRunFrom_ctl ok ok2 steps (initUp t0) (initUp t0) rfl rfl rfl
  refine ⟨?_, ?_, ?_, hctl.2.2, hctl.2.1⟩
  · have := capRunFrom_seq sched initCap
    simpa [capRun, initCap] using this
  · intro j hj
    have hq : (capRun sched).queue = capQueueOf 0 sched := by
      have := capRunFrom_queue sched initCap
      simpa [capRun, initCap] using this
    rw [hq]
    exact (mem_capQueueOf sched 0 j).2 ⟨j, hj, by omega⟩
  · intro hatt hok
    have h := uploadRun_inv ok steps t0 hwf
    exact (h.attempted c hatt).1 hok

/-- Witness for C8: a three-chunk batch where chunk 1 fails — chunks 0 and 2
still upload — and an error-then-success capture schedule that completes. -/
theorem C8_error_isolation_witness :
    StepsWF [⟨400, [0, 1, 2], [0, 1, 2]⟩] ∧
    2 ∈ (uploadRun (fun c => c != 1) [⟨400, [0, 1, 2], [0, 1, 2]⟩] 0).uploaded ∧
    0 ∈ (uploadRun (fun c => c != 1) [⟨400, [0, 1, 2], [0, 1, 2]⟩] 0).uploaded ∧
    1 ∈ (uploadRun (fun c => c != 1) [⟨400, [0, 1, 2], [0, 1, 2]⟩] 0).failed ∧
    (capRun [CapOutcome.errBeforeCreate, CapOutcome.ok]).seq = 2 := by
  have h := C8_error_isolation [CapOutcome.errBeforeCreate, CapOutcome.ok]
    (fun c => c != 1) (fun _ => true) [⟨400, [0, 1, 2], [0, 1, 2]⟩] 0 2
    (by constructor <;> decide)
  exact ⟨by constructor <;> decide, h.2.2.1 (by decide) (by decide), by decide, by decide, h.1⟩

end Ooda
